import Mathlib

/-!
Verification of the lookup ranking engine (`src/modal/lookup.ts`).

Strings are modelled as `List Char` (JS `Array.from` iterates by code
point, and Lean `Char` is a Unicode scalar value).  JS
`String.prototype.toLowerCase` is modelled code-point-wise via
`Char.toLower`; all concrete inputs in the theorems are ASCII, where the
two agree.  JS `Array.prototype.sort` is a stable sort with a consistent
comparator here, so its output is modelled by a stable insertion sort.
-/

namespace DendronLookup

/-- JS `Number.MAX_SAFE_INTEGER`, the sentinel returned by
`damerauLevenshteinDistance` when the threshold is exceeded. -/
def MAX_SAFE_INTEGER : ℕ := 9007199254740991

/-- `s.toLowerCase()`, modelled code-point-wise. -/
def toLowerCaseL (s : List Char) : List Char := s.map Char.toLower

/-- Whitespace stripped by JS `String.prototype.trim` (ASCII range). -/
def isJsSpace (c : Char) : Bool := c = ' ' || c = '\t' || c = '\n' || c = '\r'

/-- `s.trim()`. -/
def trimL (s : List Char) : List Char :=
  ((s.dropWhile isJsSpace).reverse.dropWhile isJsSpace).reverse

/-- `s.startsWith(p)`. -/
def startsWithL (s p : List Char) : Bool := p.isPrefixOf s

/-- `hay.includes(needle)`. -/
def includesL : List Char → List Char → Bool
  | [], needle => needle.isPrefixOf []
  | c :: t, needle => needle.isPrefixOf (c :: t) || includesL t needle

/-- `s.endsWith(c)` for a one-character suffix. -/
def endsWithChar (s : List Char) (c : Char) : Bool := s.getLast? == some c

/-- The common-prefix counting loops of `LookupModal.sortByDistance`:
count matching characters from position 0 while both strings last. -/
def commonPrefixLen : List Char → List Char → ℕ
  | a :: as, b :: bs => if a = b then commonPrefixLen as bs + 1 else 0
  | _, _ => 0

/-- Fuel-indexed form of the Damerau-Levenshtein dynamic program of
`LookupModal.damerauLevenshteinDistance` (structural recursion on the
fuel so that the kernel can evaluate it; `dlCell` below instantiates
the fuel with `i + j`, which the recursion never exhausts). -/
def dlCellF (sa ta : List Char) : ℕ → ℕ → ℕ → ℕ
  | 0, i, j => i + j
  | fuel + 1, i, j =>
    match i, j with
    | i, 0 => i
    | 0, j + 1 => j + 1
    | i + 1, j + 1 =>
      let cost : ℕ := if sa.getD i 'a' = ta.getD j 'a' then 0 else 1
      let del := dlCellF sa ta fuel i (j + 1) + 1
      let ins := dlCellF sa ta fuel (i + 1) j + 1
      let sub := dlCellF sa ta fuel i j + cost
      let m := min del (min ins sub)
      if 1 ≤ i ∧ 1 ≤ j ∧ sa.getD (i - 1) 'a' = ta.getD j 'a' ∧
          sa.getD i 'a' = ta.getD (j - 1) 'a' then
        min m (dlCellF sa ta fuel (i - 1) (j - 1) + cost)
      else
        m

/-- Cell `(i, j)` of the dynamic program: row `j` is the buffer
`dCurrent` after inner-loop pass `j`, `dMinus1` is row `j - 1` and
`dMinus2` row `j - 2`; `del`, `ins`, `sub` and the transposition
candidate are transcribed from the loop body of
`damerauLevenshteinDistance`. -/
def dlCell (sa ta : List Char) (i j : ℕ) : ℕ := dlCellF sa ta (i + j) i j

theorem dlCellF_eq (sa ta : List Char) :
    ∀ f g i j, i + j ≤ f → i + j ≤ g →
      dlCellF sa ta f i j = dlCellF sa ta g i j := by
  intro f
  induction f with
  | zero =>
    intro g i j hf hg
    have hi : i = 0 := by omega
    have hj : j = 0 := by omega
    subst hi; subst hj
    cases g with
    | zero => rfl
    | succ g => simp [dlCellF]
  | succ f ih =>
    intro g i j hf hg
    cases g with
    | zero =>
      have hi : i = 0 := by omega
      have hj : j = 0 := by omega
      subst hi; subst hj
      simp [dlCellF]
    | succ g =>
      match i, j with
      | i, 0 => simp [dlCellF]
      | 0, j + 1 => simp [dlCellF]
      | i + 1, j + 1 =>
        simp only [dlCellF]
        rw [ih g i (j + 1) (by omega) (by omega),
          ih g (i + 1) j (by omega) (by omega),
          ih g i j (by omega) (by omega),
          ih g (i - 1) (j - 1) (by omega) (by omega)]

theorem dlCell_zero_right (sa ta : List Char) (i : ℕ) :
    dlCell sa ta i 0 = i := by
  cases i <;> simp [dlCell, dlCellF]

theorem dlCell_zero_left (sa ta : List Char) (j : ℕ) :
    dlCell sa ta 0 j = j := by
  cases j <;> simp [dlCell, dlCellF]

theorem dlCellF_one_step (sa ta : List Char) (f i j : ℕ) :
    dlCellF sa ta (f + 1) (i + 1) (j + 1) =
      (let cost : ℕ := if sa.getD i 'a' = ta.getD j 'a' then 0 else 1
       let m := min (dlCellF sa ta f i (j + 1) + 1)
         (min (dlCellF sa ta f (i + 1) j + 1) (dlCellF sa ta f i j + cost))
       if 1 ≤ i ∧ 1 ≤ j ∧ sa.getD (i - 1) 'a' = ta.getD j 'a' ∧
           sa.getD i 'a' = ta.getD (j - 1) 'a' then
         min m (dlCellF sa ta f (i - 1) (j - 1) + cost)
       else
         m) := rfl

/-- The recurrence satisfied by the dynamic-programming cells, exactly
as computed in the inner loop of `damerauLevenshteinDistance`. -/
theorem dlCell_succ (sa ta : List Char) (i j : ℕ) :
    dlCell sa ta (i + 1) (j + 1) =
      (let cost : ℕ := if sa.getD i 'a' = ta.getD j 'a' then 0 else 1
       let m := min (dlCell sa ta i (j + 1) + 1)
         (min (dlCell sa ta (i + 1) j + 1) (dlCell sa ta i j + cost))
       if 1 ≤ i ∧ 1 ≤ j ∧ sa.getD (i - 1) 'a' = ta.getD j 'a' ∧
           sa.getD i 'a' = ta.getD (j - 1) 'a' then
         min m (dlCell sa ta (i - 1) (j - 1) + cost)
       else
         m) := by
  show dlCellF sa ta (i + 1 + (j + 1)) (i + 1) (j + 1) = _
  have h1 : i + 1 + (j + 1) = (i + j + 1) + 1 := by omega
  rw [h1, dlCellF_one_step]
  rw [dlCellF_eq sa ta (i + j + 1) (i + (j + 1)) i (j + 1) (by omega) (by omega),
    dlCellF_eq sa ta (i + j + 1) ((i + 1) + j) (i + 1) j (by omega) (by omega),
    dlCellF_eq sa ta (i + j + 1) (i + j) i j (by omega) (by omega),
    dlCellF_eq sa ta (i + j + 1) ((i - 1) + (j - 1)) (i - 1) (j - 1) (by omega) (by omega)]
  rfl

/-- `minDistance` after inner-loop pass `j`: the minimum of
`dCurrent[i]` for `i = 1 .. maxi`, starting from `MAX_SAFE_INTEGER`
(the entry `dCurrent[0]` is not included, exactly as in the source). -/
def rowMinDist (sa ta : List Char) (j : ℕ) : ℕ :=
  ((List.range sa.length).map (fun i0 => dlCell sa ta (i0 + 1) j)).foldl
    min MAX_SAFE_INTEGER

/-- Whether the early-abort `if (minDistance > threshold) return ...`
fires in any of the first `j` outer-loop passes. -/
def dlAbort (sa ta : List Char) (threshold : ℕ) : ℕ → Bool
  | 0 => false
  | j + 1 => dlAbort sa ta threshold j || decide (rowMinDist sa ta (j + 1) > threshold)

/-- The main loop and final clamp of `damerauLevenshteinDistance`,
after the argument swap has put the shorter sequence first. -/
def dlCore (sa ta : List Char) (threshold : ℕ) : ℕ :=
  if dlAbort sa ta threshold ta.length then MAX_SAFE_INTEGER
  else if dlCell sa ta sa.length ta.length > threshold then MAX_SAFE_INTEGER
  else dlCell sa ta sa.length ta.length

/-- `LookupModal.damerauLevenshteinDistance`: early length-difference
reject, swap so the shorter sequence indexes the buffers, then the
banded dynamic program. -/
def damerauLevenshteinDistance (source target : List Char) (threshold : ℕ) : ℕ :=
  if ((source.length : ℤ) - (target.length : ℤ)).natAbs > threshold then
    MAX_SAFE_INTEGER
  else if source.length > target.length then dlCore target source threshold
  else dlCore source target threshold

/-- A `LookupItem` as ranking sees it: `title` is `note.title` and
`path` is `note.getPath()` (the owning vault is irrelevant to ranking). -/
structure LookupItem where
  title : List Char
  path : List Char
deriving DecidableEq

/-- `LookupModal.sortByDistance`: compares the raw `getPath()` strings
(not lower-cased, and the path even when the query is a title query)
first by common-prefix length with the query, then by bounded edit
distance with threshold 10. -/
def sortByDistance (a b : LookupItem) (queryLowercase : List Char) : ℤ :=
  let pathA := a.path
  let pathB := b.path
  let prefixALength := commonPrefixLen queryLowercase pathA
  let prefixBLength := commonPrefixLen queryLowercase pathB
  if prefixALength ≠ prefixBLength then
    (prefixBLength : ℤ) - (prefixALength : ℤ)
  else
    (damerauLevenshteinDistance queryLowercase pathA 10 : ℤ) -
      (damerauLevenshteinDistance queryLowercase pathB 10 : ℤ)

/-- Insert one element into an already-sorted list, before the first
element it does not compare strictly greater than (stability). -/
def insertByCmp {α : Type} (cmp : α → α → ℤ) (x : α) : List α → List α
  | [] => [x]
  | y :: ys => if cmp x y ≤ 0 then x :: y :: ys else y :: insertByCmp cmp x ys

/-- Stable sort by a JS-style comparator; models
`Array.prototype.sort(cmp)` (stable per the ECMAScript spec, and the
comparators used here are consistent, so the output is determined). -/
def stableSortBy {α : Type} (cmp : α → α → ℤ) : List α → List α
  | [] => []
  | x :: xs => insertByCmp cmp x (stableSortBy cmp xs)

/-- Title-mode filter: `item.note.title.toLowerCase().includes(titleQuery)`. -/
def titleFilterPred (titleQuery : List Char) (item : LookupItem) : Bool :=
  includesL (toLowerCaseL item.title) titleQuery

/-- `item.note.getPath().toLowerCase().startsWith(queryLowercase)`. -/
def pathStartsPred (queryLowercase : List Char) (item : LookupItem) : Bool :=
  startsWithL (toLowerCaseL item.path) queryLowercase

/-- `item.note.getPath().toLowerCase().includes(queryLowercase)`. -/
def pathIncludesPred (queryLowercase : List Char) (item : LookupItem) : Bool :=
  includesL (toLowerCaseL item.path) queryLowercase

/-- Path-mode body of `getSuggestions`: prefix matches sorted, then
substring-only matches sorted. -/
def pathModeResult (items : List LookupItem) (queryLowercase : List Char) :
    List LookupItem :=
  stableSortBy (fun a b => sortByDistance a b queryLowercase)
      (items.filter (pathStartsPred queryLowercase)) ++
    stableSortBy (fun a b => sortByDistance a b queryLowercase)
      (items.filter fun item =>
        !pathStartsPred queryLowercase item && pathIncludesPred queryLowercase item)

/-- `LookupModal.getSuggestions`.  `items` is the flattened vault list
(`workspace.vaultList.flatMap(vault => vault.tree.flatten()...)`), in
its deterministic enumeration order. -/
def getSuggestions (items : List LookupItem) (query : List Char) :
    List (Option LookupItem) :=
  let queryLowercase := trimL (toLowerCaseL query)
  if startsWithL queryLowercase ['?'] then
    let titleQuery := queryLowercase.drop 1
    (stableSortBy (fun a b => sortByDistance a b titleQuery)
        (items.filter (titleFilterPred titleQuery))).map some
  else if queryLowercase.length = 0 then
    (items.filter fun item => !includesL item.path ['.']).map some
  else
    let result := pathModeResult items queryLowercase
    let firstResult := result.head?.map fun item => toLowerCaseL item.path
    if queryLowercase.length > 0 && !endsWithChar queryLowercase '.' &&
        firstResult != some queryLowercase then
      none :: result.map some
    else
      result.map some

/-- Comparison primitive as §4.2 of the spec words it for title mode:
common-prefix length and then bounded distance, both against the
lower-cased *title*. -/
def specTitleComparator (a b : LookupItem) (q : List Char) : ℤ :=
  if commonPrefixLen q (toLowerCaseL a.title) ≠ commonPrefixLen q (toLowerCaseL b.title) then
    (commonPrefixLen q (toLowerCaseL b.title) : ℤ) -
      (commonPrefixLen q (toLowerCaseL a.title) : ℤ)
  else
    (damerauLevenshteinDistance q (toLowerCaseL a.title) 10 : ℤ) -
      (damerauLevenshteinDistance q (toLowerCaseL b.title) 10 : ℤ)

/-- Title-mode result as the spec words it: filter to entries whose
lower-cased title contains the stripped query, sorted by the comparator
applied to the title. -/
def specTitleModeResult (items : List LookupItem) (query : List Char) :
    List (Option LookupItem) :=
  let queryLowercase := trimL (toLowerCaseL query)
  let titleQuery := queryLowercase.drop 1
  (stableSortBy (fun a b => specTitleComparator a b titleQuery)
      (items.filter (titleFilterPred titleQuery))).map some

/-- Comparison primitive as §4.2 of the spec words it for path mode:
both criteria computed against the lower-cased path. -/
def specPathComparator (a b : LookupItem) (q : List Char) : ℤ :=
  if commonPrefixLen q (toLowerCaseL a.path) ≠ commonPrefixLen q (toLowerCaseL b.path) then
    (commonPrefixLen q (toLowerCaseL b.path) : ℤ) -
      (commonPrefixLen q (toLowerCaseL a.path) : ℤ)
  else
    (damerauLevenshteinDistance q (toLowerCaseL a.path) 10 : ℤ) -
      (damerauLevenshteinDistance q (toLowerCaseL b.path) 10 : ℤ)

theorem insertByCmp_perm {α : Type} (cmp : α → α → ℤ) (x : α) (l : List α) :
    (insertByCmp cmp x l).Perm (x :: l) := by
  induction l with
  | nil => simp [insertByCmp]
  | cons y ys ih =>
    by_cases h : cmp x y ≤ 0
    · simp [insertByCmp, h]
    · simp only [insertByCmp, if_neg h]
      exact (ih.cons y).trans (List.Perm.swap x y ys)

theorem stableSortBy_perm {α : Type} (cmp : α → α → ℤ) (l : List α) :
    (stableSortBy cmp l).Perm l := by
  induction l with
  | nil => simp [stableSortBy]
  | cons x xs ih =>
    exact (insertByCmp_perm cmp x (stableSortBy cmp xs)).trans (ih.cons x)

theorem mem_stableSortBy {α : Type} (cmp : α → α → ℤ) (l : List α) (a : α) :
    a ∈ stableSortBy cmp l ↔ a ∈ l :=
  (stableSortBy_perm cmp l).mem_iff

theorem startsWithL_imp_includesL (s p : List Char) (h : startsWithL s p = true) :
    includesL s p = true := by
  cases s with
  | nil => simpa [includesL, startsWithL] using h
  | cons c t => simp [includesL, startsWithL] at h ⊢; exact Or.inl h

/-- C2: on an empty `source` and a non-empty `target` whose length lies
within the threshold, the code does *not* return the other sequence's
length: with the shorter sequence empty the inner loop never runs, so
`minDistance` keeps its `MAX_SAFE_INTEGER` initialisation and the
per-row early abort fires on the first row.  `distance("", "a", 5)`
returns the sentinel instead of `1`, contradicting the claim and the
function's own doc comment; two empty sequences still give `0`. -/
theorem distance_empty_source_returns_sentinel :
    damerauLevenshteinDistance [] ['a'] 5 = MAX_SAFE_INTEGER ∧
      MAX_SAFE_INTEGER ≠ 1 ∧
      damerauLevenshteinDistance [] [] 5 = 0 := by decide

/-- C7: the adjacent-transposition rule of Damerau-Levenshtein is
implemented: `distance("ab", "ba", 5) = 1`, and on the same inputs a
cell where the transposition guard fails (`distance("ab", "ca", 5)`,
where `source[i-2] ≠ target[j-1]`) costs 2. -/
theorem distance_transposition :
    damerauLevenshteinDistance "ab".data "ba".data 5 = 1 ∧
      damerauLevenshteinDistance "ab".data "ca".data 5 = 2 := by decide

/-- C9: the distance function returns either a value bounded by the
threshold or exactly the sentinel `MAX_SAFE_INTEGER`: every `return`
statement is either the sentinel or a value checked `≤ threshold`. -/
theorem distance_le_threshold_or_sentinel (source target : List Char) (threshold : ℕ) :
    damerauLevenshteinDistance source target threshold ≤ threshold ∨
      damerauLevenshteinDistance source target threshold = MAX_SAFE_INTEGER := by
  unfold damerauLevenshteinDistance dlCore
  split_ifs <;> simp_all

/-- C3 counterexample: the code lower-cases *and trims* the raw query
once, up front (`query.toLowerCase().trim()`), and uses that trimmed
form for the prefix/substring matching as well; a query with a
trailing space therefore matches exactly like its trimmed form,
where the claim asserts the two match differently. -/
theorem trailing_space_query_same_result :
    getSuggestions [⟨"t".data, "foo".data⟩] "foo ".data =
        getSuggestions [⟨"t".data, "foo".data⟩] "foo".data ∧
      getSuggestions [⟨"t".data, "foo".data⟩] "foo ".data =
        [some ⟨"t".data, "foo".data⟩] := by decide

/-- C3 amended: `getSuggestions` depends on the raw query only through
its lower-cased, trimmed form, so queries differing in leading or
trailing whitespace produce identical results. -/
theorem getSuggestions_depends_only_on_trimmed (items : List LookupItem)
    (q1 q2 : List Char) (h : trimL (toLowerCaseL q1) = trimL (toLowerCaseL q2)) :
    getSuggestions items q1 = getSuggestions items q2 := by
  unfold getSuggestions
  rw [h]

/-- Witness for the C3 amended theorem at a concrete query pair. -/
theorem getSuggestions_depends_only_on_trimmed_witness :
    trimL (toLowerCaseL " foo".data) = trimL (toLowerCaseL "foo".data) ∧
      getSuggestions [⟨"t".data, "foo".data⟩] " foo".data =
        getSuggestions [⟨"t".data, "foo".data⟩] "foo".data :=
  ⟨by decide,
    getSuggestions_depends_only_on_trimmed [⟨"t".data, "foo".data⟩] _ _ (by decide)⟩

/-- C4 counterexample: `sortByDistance` compares the query against the
*raw* `getPath()` string, not a lower-cased one.  With query `"foo"`,
the entry with path `"FOO"` (differing from the query only in case)
gets common-prefix length 0 and is ranked *after* path `"fooz"`
(comparator value `3 > 0`), while the spec's lower-cased comparator
ranks it first (`-1 < 0`). -/
theorem comparator_not_lowercased_counterexample :
    sortByDistance ⟨"t".data, "FOO".data⟩ ⟨"t".data, "fooz".data⟩ "foo".data = 3 ∧
      specPathComparator ⟨"t".data, "FOO".data⟩ ⟨"t".data, "fooz".data⟩ "foo".data = -1 := by
  decide

/-- C4 amended: the comparator's first criterion is the common-prefix
length between the query and the entry's *raw, case-preserving* path
(always the path, even in title mode), counted from position 0 to the
first mismatch or end of either string; ties fall to the bounded edit
distance with threshold 10 against the same raw path.  An entry whose
path differs from the query only in letter case is *not* ranked as an
exact match. -/
theorem sortByDistance_neg_iff (a b : LookupItem) (q : List Char) :
    sortByDistance a b q < 0 ↔
      (commonPrefixLen q b.path < commonPrefixLen q a.path ∨
        (commonPrefixLen q a.path = commonPrefixLen q b.path ∧
          damerauLevenshteinDistance q a.path 10 < damerauLevenshteinDistance q b.path 10)) := by
  simp only [sortByDistance]
  split_ifs with h
  · constructor
    · intro hlt
      left
      omega
    · intro hc
      rcases hc with hc | hc
      · omega
      · exact absurd hc.1 h
  · constructor
    · intro hlt
      right
      exact ⟨not_not.mp h, by omega⟩
    · intro hc
      rcases hc with hc | hc
      · omega
      · omega

/-- C1 counterexample: in title mode the sort comparator is applied to
each entry's *path* (`sortByDistance` reads `note.getPath()`), not its
title.  With query `"?x"` and entries `(title "xb", path "zz")`,
`(title "xa", path "ax")` the code orders by path distance and returns
the second entry first, while ordering by the comparator applied to
titles (both tied) would keep the input order. -/
theorem titleMode_sorted_by_path_counterexample :
    getSuggestions [⟨"xb".data, "zz".data⟩, ⟨"xa".data, "ax".data⟩] "?x".data =
        [some ⟨"xa".data, "ax".data⟩, some ⟨"xb".data, "zz".data⟩] ∧
      specTitleModeResult [⟨"xb".data, "zz".data⟩, ⟨"xa".data, "ax".data⟩] "?x".data =
        [some ⟨"xb".data, "zz".data⟩, some ⟨"xa".data, "ax".data⟩] := by decide

/-- C1 amended: in title mode (trimmed lower-cased query starting with
`'?'`), the result is exactly the entries whose lower-cased title
contains the stripped query as a substring, ordered by the
prefix-length/edit-distance comparator applied to each entry's *path*
(stable sort, threshold-10 distance). -/
theorem titleMode_filters_title_sorts_by_path (items : List LookupItem)
    (query tq : List Char) (h : trimL (toLowerCaseL query) = '?' :: tq) :
    getSuggestions items query =
      (stableSortBy (fun a b => sortByDistance a b tq)
        (items.filter (titleFilterPred tq))).map some := by
  unfold getSuggestions
  rw [h]
  simp [startsWithL, List.isPrefixOf]

/-- Witness for the C1 amended theorem at a concrete query. -/
theorem titleMode_filters_title_sorts_by_path_witness :
    trimL (toLowerCaseL "?x".data) = '?' :: "x".data ∧
      getSuggestions [⟨"xb".data, "zz".data⟩, ⟨"xa".data, "ax".data⟩] "?x".data =
        (stableSortBy (fun a b => sortByDistance a b "x".data)
          ([⟨"xb".data, "zz".data⟩, ⟨"xa".data, "ax".data⟩].filter
            (titleFilterPred "x".data))).map some :=
  ⟨by decide, titleMode_filters_title_sorts_by_path _ _ _ (by decide)⟩

/-- C5: the creation sentinel `none` appears in the result exactly when
the query is in path mode (trimmed lower-cased query neither starting
with `'?'` nor empty), does not end with `'.'`, and the
best-ranked result's lower-cased path is not the trimmed query; and
whenever the sentinel is present it is at position 0. -/
theorem creation_sentinel_iff (items : List LookupItem) (query : List Char) :
    (none ∈ getSuggestions items query ↔
      (startsWithL (trimL (toLowerCaseL query)) ['?'] = false ∧
        trimL (toLowerCaseL query) ≠ [] ∧
        endsWithChar (trimL (toLowerCaseL query)) '.' = false ∧
        (pathModeResult items (trimL (toLowerCaseL query))).head?.map
            (fun item => toLowerCaseL item.path) ≠ some (trimL (toLowerCaseL query)))) ∧
    ((getSuggestions items query).head? = some none ∨
      none ∉ getSuggestions items query) := by
  unfold getSuggestions
  by_cases h1 : startsWithL (trimL (toLowerCaseL query)) ['?'] = true
  · simp [h1, List.mem_map]
  · rw [Bool.not_eq_true] at h1
    by_cases h2 : (trimL (toLowerCaseL query)).length = 0
    · simp [h1, h2, List.mem_map, List.length_eq_zero.mp h2, startsWithL,
        List.isPrefixOf]
    · have hne : trimL (toLowerCaseL query) ≠ [] := by
        intro hnil
        exact h2 (by simp [hnil])
      by_cases h3 : endsWithChar (trimL (toLowerCaseL query)) '.' = true
      · simp [h1, h2, h3, List.mem_map]
      · rw [Bool.not_eq_true] at h3
        by_cases h4 : (pathModeResult items (trimL (toLowerCaseL query))).head?.map
            (fun item => toLowerCaseL item.path) = some (trimL (toLowerCaseL query))
        · simp [h1, h2, h3, h4, List.mem_map]
        · simp [h1, h2, h3, h4, hne, List.mem_map, Nat.pos_of_ne_zero h2]

/-- C6: in path mode with a non-empty query, the result is an optional
sentinel followed by all prefix matches and then all substring-only
matches: every entry whose lower-cased path starts with the query
precedes every entry whose lower-cased path merely contains it, and
every entry in the result contains the query in its lower-cased path. -/
theorem pathMode_partition (items : List LookupItem) (query : List Char)
    (h1 : startsWithL (trimL (toLowerCaseL query)) ['?'] = false)
    (h2 : trimL (toLowerCaseL query) ≠ []) :
    ∃ (s : List (Option LookupItem)) (sw cw : List LookupItem),
      getSuggestions items query = s ++ sw.map some ++ cw.map some ∧
        (s = [] ∨ s = [none]) ∧
        (∀ x ∈ sw, pathStartsPred (trimL (toLowerCaseL query)) x = true) ∧
        (∀ x ∈ cw, pathStartsPred (trimL (toLowerCaseL query)) x = false ∧
          pathIncludesPred (trimL (toLowerCaseL query)) x = true) ∧
        (∀ x : LookupItem, some x ∈ getSuggestions items query →
          pathIncludesPred (trimL (toLowerCaseL query)) x = true) := by
  have h2' : (trimL (toLowerCaseL query)).length ≠ 0 := by
    simpa [List.length_eq_zero] using h2
  set qlc := trimL (toLowerCaseL query) with hqlc
  refine ⟨if (decide (qlc.length > 0) && !endsWithChar qlc '.' &&
      ((pathModeResult items qlc).head?.map (fun item => toLowerCaseL item.path) !=
        some qlc)) = true then [none] else [],
    stableSortBy (fun a b => sortByDistance a b qlc)
      (items.filter (pathStartsPred qlc)),
    stableSortBy (fun a b => sortByDistance a b qlc)
      (items.filter fun item => !pathStartsPred qlc item && pathIncludesPred qlc item),
    ?_, ?_, ?_, ?_, ?_⟩
  · unfold getSuggestions
    rw [← hqlc]
    simp only [h1, Bool.false_eq_true, if_false, h2', if_false]
    split_ifs with hc
    · simp [pathModeResult, hc]
    · simp [pathModeResult, hc]
  · split_ifs <;> simp
  · intro x hx
    rw [mem_stableSortBy] at hx
    exact (List.mem_filter.mp hx).2
  · intro x hx
    rw [mem_stableSortBy] at hx
    have := (List.mem_filter.mp hx).2
    simp only [Bool.and_eq_true, Bool.not_eq_true'] at this
    exact this
  · intro x hx
    unfold getSuggestions at hx
    rw [← hqlc] at hx
    simp only [h1, Bool.false_eq_true, if_false, h2', if_false] at hx
    have hx' : some x ∈ (pathModeResult items qlc).map some := by
      split_ifs at hx with hc
      · rcases List.mem_cons.mp hx with h | h
        · exact absurd h (by simp)
        · exact h
      · exact hx
    have hx'' : x ∈ pathModeResult items qlc := by
      simpa using hx'
    unfold pathModeResult at hx''
    rcases List.mem_append.mp hx'' with hm | hm
    · rw [mem_stableSortBy] at hm
      have hs := (List.mem_filter.mp hm).2
      exact startsWithL_imp_includesL _ _ hs
    · rw [mem_stableSortBy] at hm
      have hs := (List.mem_filter.mp hm).2
      simp only [Bool.and_eq_true] at hs
      exact hs.2

/-- Witness for the C6 theorem on the spec's own example candidates. -/
theorem pathMode_partition_witness :
    startsWithL (trimL (toLowerCaseL "foo".data)) ['?'] = false ∧
      trimL (toLowerCaseL "foo".data) ≠ [] ∧
      (∃ (s : List (Option LookupItem)) (sw cw : List LookupItem),
        getSuggestions [⟨"t".data, "foobar".data⟩, ⟨"t".data, "zfoo".data⟩,
            ⟨"t".data, "fooz".data⟩] "foo".data =
          s ++ sw.map some ++ cw.map some ∧
          (s = [] ∨ s = [none]) ∧
          (∀ x ∈ sw, pathStartsPred (trimL (toLowerCaseL "foo".data)) x = true) ∧
          (∀ x ∈ cw, pathStartsPred (trimL (toLowerCaseL "foo".data)) x = false ∧
            pathIncludesPred (trimL (toLowerCaseL "foo".data)) x = true) ∧
          (∀ x : LookupItem, some x ∈ getSuggestions [⟨"t".data, "foobar".data⟩,
              ⟨"t".data, "zfoo".data⟩, ⟨"t".data, "fooz".data⟩] "foo".data →
            pathIncludesPred (trimL (toLowerCaseL "foo".data)) x = true)) :=
  ⟨by decide, by decide,
    pathMode_partition [⟨"t".data, "foobar".data⟩, ⟨"t".data, "zfoo".data⟩,
      ⟨"t".data, "fooz".data⟩] "foo".data (by decide) (by decide)⟩

/-- C10: in path mode, when the trimmed query is non-empty, does not
end with `'.'`, and no entry's lower-cased path contains it as a
substring, the result is exactly the one-element list holding the
creation sentinel. -/
theorem pathMode_no_match_sentinel_only (items : List LookupItem) (query : List Char)
    (h1 : startsWithL (trimL (toLowerCaseL query)) ['?'] = false)
    (h2 : trimL (toLowerCaseL query) ≠ [])
    (h3 : endsWithChar (trimL (toLowerCaseL query)) '.' = false)
    (h4 : ∀ item ∈ items, pathIncludesPred (trimL (toLowerCaseL query)) item = false) :
    getSuggestions items query = [none] := by
  have h2' : (trimL (toLowerCaseL query)).length ≠ 0 := by
    simpa [List.length_eq_zero] using h2
  set qlc := trimL (toLowerCaseL query) with hqlc
  have hfs : items.filter (pathStartsPred qlc) = [] := by
    refine List.filter_eq_nil_iff.mpr fun a ha hsa => ?_
    have hinc : pathIncludesPred qlc a = true := startsWithL_imp_includesL _ _ hsa
    rw [h4 a ha] at hinc
    exact Bool.false_ne_true hinc
  have hfc : (items.filter fun item =>
      !pathStartsPred qlc item && pathIncludesPred qlc item) = [] := by
    refine List.filter_eq_nil_iff.mpr fun a ha hca => ?_
    simp only [Bool.and_eq_true] at hca
    rw [h4 a ha] at hca
    exact Bool.false_ne_true hca.2
  have hempty : pathModeResult items qlc = [] := by
    unfold pathModeResult
    rw [hfs, hfc]
    simp [stableSortBy]
  unfold getSuggestions
  rw [← hqlc]
  simp only [h1, Bool.false_eq_true, if_false, h2', if_false, hempty]
  simp [h2', h3, Nat.pos_of_ne_zero h2']

/-- Witness for the C10 theorem at a concrete non-matching query. -/
theorem pathMode_no_match_sentinel_only_witness :
    startsWithL (trimL (toLowerCaseL "bar".data)) ['?'] = false ∧
      trimL (toLowerCaseL "bar".data) ≠ [] ∧
      endsWithChar (trimL (toLowerCaseL "bar".data)) '.' = false ∧
      (∀ item ∈ [LookupItem.mk "t".data "foo".data],
        pathIncludesPred (trimL (toLowerCaseL "bar".data)) item = false) ∧
      getSuggestions [LookupItem.mk "t".data "foo".data] "bar".data = [none] :=
  ⟨by decide, by decide, by decide, by decide,
    pathMode_no_match_sentinel_only [LookupItem.mk "t".data "foo".data] "bar".data
      (by decide) (by decide) (by decide) (by decide)⟩

/-- Let-free form of the recurrence, convenient for reasoning. -/
theorem dlCell_succ_eq (sa ta : List Char) (i j : ℕ) :
    dlCell sa ta (i + 1) (j + 1) =
      if 1 ≤ i ∧ 1 ≤ j ∧ sa.getD (i - 1) 'a' = ta.getD j 'a' ∧
          sa.getD i 'a' = ta.getD (j - 1) 'a' then
        min (min (dlCell sa ta i (j + 1) + 1) (min (dlCell sa ta (i + 1) j + 1)
          (dlCell sa ta i j + (if sa.getD i 'a' = ta.getD j 'a' then 0 else 1))))
          (dlCell sa ta (i - 1) (j - 1) + (if sa.getD i 'a' = ta.getD j 'a' then 0 else 1))
      else
        min (dlCell sa ta i (j + 1) + 1) (min (dlCell sa ta (i + 1) j + 1)
          (dlCell sa ta i j + (if sa.getD i 'a' = ta.getD j 'a' then 0 else 1))) := by
  rw [dlCell_succ]

/-- The dynamic program is symmetric under exchanging the two
sequences: the matrix transposes. -/
theorem dlCell_transpose (sa ta : List Char) (i j : ℕ) :
    dlCell sa ta i j = dlCell ta sa j i := by
  suffices h : ∀ n i j, i + j ≤ n → dlCell sa ta i j = dlCell ta sa j i from
    h (i + j) i j le_rfl
  intro n
  induction n with
  | zero =>
    intro i j h
    have hi : i = 0 := by omega
    have hj : j = 0 := by omega
    subst hi; subst hj
    rfl
  | succ n ih =>
    intro i j h
    match i, j with
    | 0, j => rw [dlCell_zero_left, dlCell_zero_right]
    | i + 1, 0 => rw [dlCell_zero_right, dlCell_zero_left]
    | i + 1, j + 1 =>
      rw [dlCell_succ_eq, dlCell_succ_eq]
      rw [ih i (j + 1) (by omega), ih (i + 1) j (by omega), ih i j (by omega),
        ih (i - 1) (j - 1) (by omega)]
      have hcost : (if sa.getD i 'a' = ta.getD j 'a' then (0 : ℕ) else 1) =
          (if ta.getD j 'a' = sa.getD i 'a' then (0 : ℕ) else 1) := by
        by_cases hc : sa.getD i 'a' = ta.getD j 'a'
        · rw [if_pos hc, if_pos hc.symm]
        · rw [if_neg hc, if_neg fun hh => hc hh.symm]
      rw [hcost]
      have hguard : (1 ≤ i ∧ 1 ≤ j ∧ sa.getD (i - 1) 'a' = ta.getD j 'a' ∧
            sa.getD i 'a' = ta.getD (j - 1) 'a') ↔
          (1 ≤ j ∧ 1 ≤ i ∧ ta.getD (j - 1) 'a' = sa.getD i 'a' ∧
            ta.getD j 'a' = sa.getD (i - 1) 'a') := by
        constructor
        · rintro ⟨a1, a2, a3, a4⟩
          exact ⟨a2, a1, a4.symm, a3.symm⟩
        · rintro ⟨a1, a2, a3, a4⟩
          exact ⟨a2, a1, a4.symm, a3.symm⟩
      simp only [hguard]
      split_ifs <;> omega

/-- Inserting one more target character raises a cell by at most 1
(the insertion branch of the recurrence). -/
theorem dlCell_le_ins (sa ta : List Char) (i j : ℕ) :
    dlCell sa ta i (j + 1) ≤ dlCell sa ta i j + 1 := by
  cases i with
  | zero => rw [dlCell_zero_left, dlCell_zero_left]
  | succ i => rw [dlCell_succ_eq]; split_ifs <;> omega

/-- Inserting one more source character raises a cell by at most 1
(the deletion branch of the recurrence). -/
theorem dlCell_le_del (sa ta : List Char) (i j : ℕ) :
    dlCell sa ta (i + 1) j ≤ dlCell sa ta i j + 1 := by
  cases j with
  | zero => rw [dlCell_zero_right, dlCell_zero_right]
  | succ j => rw [dlCell_succ_eq]; split_ifs <;> omega

/-- The substitution branch bounds the diagonal successor. -/
theorem dlCell_le_subst (sa ta : List Char) (i j : ℕ) :
    dlCell sa ta (i + 1) (j + 1) ≤
      dlCell sa ta i j + (if sa.getD i 'a' = ta.getD j 'a' then 0 else 1) := by
  rw [dlCell_succ_eq]; split_ifs <;> omega

/-- Removing the last target character lowers a cell by at most 1. -/
theorem dlCell_le_ins_rev (sa ta : List Char) :
    ∀ i j, dlCell sa ta i j ≤ dlCell sa ta i (j + 1) + 1 := by
  intro i
  induction i with
  | zero => intro j; rw [dlCell_zero_left, dlCell_zero_left]; omega
  | succ i ih =>
    intro j
    have hdel := dlCell_le_del sa ta i j
    have hih := ih j
    rw [dlCell_succ_eq]
    split_ifs with hg hc
    · obtain ⟨h1, h2, h3, h4⟩ := hg
      have e1 : j - 1 + 1 = j := by omega
      have e2 : i - 1 + 1 = i := by omega
      have hsub := dlCell_le_subst sa ta i (j - 1)
      rw [e1, if_pos h4] at hsub
      have hdel2 := dlCell_le_del sa ta (i - 1) (j - 1)
      rw [e2] at hdel2
      omega
    · obtain ⟨h1, h2, h3, h4⟩ := hg
      have e1 : j - 1 + 1 = j := by omega
      have e2 : i - 1 + 1 = i := by omega
      have hsub := dlCell_le_subst sa ta (i - 1) (j - 1)
      rw [e1, e2] at hsub
      have hcost3 : (if sa.getD (i - 1) 'a' = ta.getD (j - 1) 'a' then (0 : ℕ) else 1) ≤ 1 := by
        split_ifs <;> omega
      omega
    · omega
    · omega

/-- Removing the last source character lowers a cell by at most 1. -/
theorem dlCell_le_del_rev (sa ta : List Char) (i j : ℕ) :
    dlCell sa ta i j ≤ dlCell sa ta (i + 1) j + 1 := by
  rw [dlCell_transpose sa ta i j, dlCell_transpose sa ta (i + 1) j]
  exact dlCell_le_ins_rev ta sa j i

/-- Cells are monotone along the diagonal. -/
theorem dlCell_diag_le (sa ta : List Char) (i j : ℕ) :
    dlCell sa ta i j ≤ dlCell sa ta (i + 1) (j + 1) := by
  have h1 := dlCell_le_ins_rev sa ta i j
  have h2 := dlCell_le_del_rev sa ta i j
  rw [dlCell_succ_eq]
  split_ifs with hg hc
  · obtain ⟨hg1, hg2, hg3, hg4⟩ := hg
    have e1 : j - 1 + 1 = j := by omega
    have e2 : i - 1 + 1 = i := by omega
    have heq : sa.getD (i - 1) 'a' = ta.getD (j - 1) 'a' :=
      hg3.trans (hc.symm.trans hg4)
    have hsub := dlCell_le_subst sa ta (i - 1) (j - 1)
    rw [e1, e2, if_pos heq] at hsub
    omega
  · obtain ⟨hg1, hg2, hg3, hg4⟩ := hg
    have e1 : j - 1 + 1 = j := by omega
    have e2 : i - 1 + 1 = i := by omega
    have hsub := dlCell_le_subst sa ta (i - 1) (j - 1)
    rw [e1, e2] at hsub
    have hcost3 : (if sa.getD (i - 1) 'a' = ta.getD (j - 1) 'a' then (0 : ℕ) else 1) ≤ 1 := by
      split_ifs <;> omega
    omega
  · omega
  · omega

theorem dlCell_diag_mono (sa ta : List Char) (j : ℕ) :
    ∀ n, j ≤ n → dlCell sa ta j j ≤ dlCell sa ta n n := by
  intro n
  induction n with
  | zero =>
    intro h
    have hj0 : j = 0 := by omega
    subst hj0
    exact le_rfl
  | succ n ih =>
    intro h
    by_cases hj : j ≤ n
    · exact le_trans (ih hj) (dlCell_diag_le sa ta n n)
    · have hje : j = n + 1 := by omega
      subst hje
      exact le_rfl

theorem foldl_min_le_init (l : List ℕ) : ∀ init, l.foldl min init ≤ init := by
  induction l with
  | nil => intro init; exact le_rfl
  | cons a l ih =>
    intro init
    exact le_trans (ih (min init a)) (min_le_left _ _)

theorem foldl_min_le_mem (l : List ℕ) (x : ℕ) (h : x ∈ l) :
    ∀ init, l.foldl min init ≤ x := by
  induction l with
  | nil => cases h
  | cons a l ih =>
    intro init
    rcases List.mem_cons.mp h with rfl | hm
    · exact le_trans (foldl_min_le_init l (min init x)) (min_le_right _ _)
    · exact ih hm (min init a)

/-- `minDistance` after row `j` is bounded by any entry of that row
with index `≥ 1`. -/
theorem rowMinDist_le (sa ta : List Char) (j i0 : ℕ) (h : i0 < sa.length) :
    rowMinDist sa ta j ≤ dlCell sa ta (i0 + 1) j := by
  unfold rowMinDist
  exact foldl_min_le_mem _ _
    (List.mem_map.mpr ⟨i0, List.mem_range.mpr h, rfl⟩) _

theorem dlAbort_exists (sa ta : List Char) (k : ℕ) :
    ∀ n, dlAbort sa ta k n = true →
      ∃ j, 1 ≤ j ∧ j ≤ n ∧ k < rowMinDist sa ta j := by
  intro n
  induction n with
  | zero => intro h; simp [dlAbort] at h
  | succ n ih =>
    intro h
    simp only [dlAbort, Bool.or_eq_true, decide_eq_true_eq] at h
    rcases h with h | h
    · obtain ⟨j, hj1, hj2, hj3⟩ := ih h
      exact ⟨j, hj1, by omega, hj3⟩
    · exact ⟨n + 1, by omega, le_rfl, h⟩

/-- For equal-length inputs, the per-row early abort is sound: it only
fires when the final cell already exceeds the threshold, so `dlCore`
reduces to clamping the final cell. -/
theorem dlCore_eq_clamp (sa ta : List Char) (k : ℕ) (h : sa.length = ta.length) :
    dlCore sa ta k =
      if dlCell sa ta sa.length ta.length > k then MAX_SAFE_INTEGER
      else dlCell sa ta sa.length ta.length := by
  unfold dlCore
  by_cases ha : dlAbort sa ta k ta.length = true
  · rw [if_pos ha]
    obtain ⟨j, hj1, hj2, hj3⟩ := dlAbort_exists sa ta k ta.length ha
    have hle := rowMinDist_le sa ta j (j - 1) (by omega)
    rw [show j - 1 + 1 = j from by omega] at hle
    have hdiag : dlCell sa ta j j ≤ dlCell sa ta sa.length ta.length := by
      rw [h]
      exact dlCell_diag_mono sa ta j ta.length hj2
    rw [if_pos (by omega : dlCell sa ta sa.length ta.length > k)]
  · rw [if_neg ha]

/-- C8: the distance function is symmetric in its two sequence
arguments, early length-difference reject, per-row abort and final
clamp included. -/
theorem distance_symm (a b : List Char) (k : ℕ) :
    damerauLevenshteinDistance a b k = damerauLevenshteinDistance b a k := by
  unfold damerauLevenshteinDistance
  have habs : ((a.length : ℤ) - (b.length : ℤ)).natAbs =
      ((b.length : ℤ) - (a.length : ℤ)).natAbs := by omega
  rw [habs]
  by_cases hrej : ((b.length : ℤ) - (a.length : ℤ)).natAbs > k
  · rw [if_pos hrej, if_pos hrej]
  · rw [if_neg hrej, if_neg hrej]
    rcases Nat.lt_trichotomy a.length b.length with hlt | heq | hgt
    · rw [if_neg (by omega), if_pos hlt]
    · rw [if_neg (by omega), if_neg (by omega)]
      rw [dlCore_eq_clamp a b k heq, dlCore_eq_clamp b a k heq.symm]
      rw [dlCell_transpose a b]
    · rw [if_pos hgt, if_neg (by omega)]

end DendronLookup
